import Mathlib

/-
Verification of the closure-rewriting pass of wasm-bindgen.

The development shallowly embeds:
  * the runtime descriptor emitters of src/closure.rs and src/convert/closures.rs
    (the word streams produced by the monomorphized `describe` subprograms), and
  * the post-link rewriter of crates/cli-support/src/js/closures.rs
    (scanner visitor, table-entry removal, import injection, orchestrator).

Code of the repository that is not among the provided sources (the descriptor
tag constants of src/describe.rs, `Descriptor::decode` of
crates/cli-support/src/descriptor.rs, the abstract interpreter crate, and the
`Js2Rust` builder) is modelled from the specification; each such definition
carries a doc comment starting with `Modelled from the spec:`.
-/

set_option maxHeartbeats 1000000

namespace WasmBindgen

/-! ### Descriptor words -/

/-- Modelled from the spec: descriptor tag constant (src/describe.rs is not
among the sources; only distinctness of the codes matters to the protocol). -/
def CLOSURE : Nat := 4

/-- Modelled from the spec: descriptor tag constant for a function subtree. -/
def FUNCTION : Nat := 3

/-- Modelled from the spec: flavor tag for `Fn`. -/
def FN : Nat := 10

/-- Modelled from the spec: flavor tag for `FnMut`. -/
def FN_MUT : Nat := 11

/-- Modelled from the spec: flavor tag for `FnOnce`. -/
def FN_ONCE : Nat := 12

/-- Modelled from the spec: type tag for a 32-bit integer. -/
def I32 : Nat := 0

/-- Modelled from the spec: type tag for an opaque JS value. -/
def ANYREF : Nat := 7

/-- Modelled from the spec: type tag opening a recursive type descriptor. -/
def REF : Nat := 8

/-- Modelled from the spec: the closed set of wasm-representable semantic types
used in signatures; `type descriptors recurse`, represented by `ref`. -/
inductive Ty where
  | i32
  | anyref
  | ref (inner : Ty)
deriving DecidableEq, Repr

/-- Modelled from the spec: the word stream a type emits for itself (the
`WasmDescribe` impls of src/describe.rs, absent from the sources). -/
def Ty.describeWords : Ty → List Nat
  | .i32 => [I32]
  | .anyref => [ANYREF]
  | .ref t => REF :: t.describeWords

/-- Closure flavors: `ClosureKind` on the tool side and the three trait
families of src/closure.rs on the runtime side. -/
inductive ClosureKind where
  | fn
  | fnMut
  | fnOnce
deriving DecidableEq, Repr

/-- The word each flavor informs for itself (src/closure.rs lines 354, 402, 517). -/
def ClosureKind.tagWord : ClosureKind → Nat
  | .fn => FN
  | .fnMut => FN_MUT
  | .fnOnce => FN_ONCE

/-- Signature subtree rooted at `FUNCTION`: invoker-table word, arguments and
return type (convert/closures.rs, `stack_closures!`). -/
structure FnSig where
  invoke : Nat
  args : List Ty
  ret : Ty
deriving DecidableEq, Repr

/-- The decoded closure descriptor: flavor, invoker-shim table index,
destructor table index, and the signature subtree. -/
structure ClosureDescriptor where
  kind : ClosureKind
  shim_idx : Nat
  dtor_idx : Nat
  function : FnSig
deriving DecidableEq, Repr

/-- The decoded descriptor.  The general descriptor protocol for non-closure
bindings is an external collaborator; only the closure shape is in scope. -/
inductive Descriptor where
  | closure (c : ClosureDescriptor)
deriving DecidableEq, Repr

/-! ### Descriptor decoding (spec-modelled: crates/cli-support/src/descriptor.rs
is not among the provided sources). -/

/-- Modelled from the spec: prefix decoding of one type descriptor. -/
def decodeTy : List Nat → Option (Ty × List Nat)
  | [] => none
  | w :: rest =>
    if w = I32 then some (Ty.i32, rest)
    else if w = ANYREF then some (Ty.anyref, rest)
    else if w = REF then
      match decodeTy rest with
      | some (t, r) => some (Ty.ref t, r)
      | none => none
    else none

/-- Modelled from the spec: decode `n` consecutive type descriptors. -/
def decodeTys : Nat → List Nat → Option (List Ty × List Nat)
  | 0, ws => some ([], ws)
  | n + 1, ws =>
    match decodeTy ws with
    | some (t, rest) =>
      match decodeTys n rest with
      | some (ts, r) => some (t :: ts, r)
      | none => none
    | none => none

/-- Modelled from the spec: flavor-tag decoding inside `Descriptor::decode`. -/
def decodeKind (w : Nat) : Option ClosureKind :=
  if w = FN then some ClosureKind.fn
  else if w = FN_MUT then some ClosureKind.fnMut
  else if w = FN_ONCE then some ClosureKind.fnOnce
  else none

/-- Modelled from the spec: `Descriptor::decode` on the closure shape.  The
first word identifies the shape; the closure variant consists of the shim table
index, the destructor table index, the flavor tag, then the signature subtree
rooted at `FUNCTION`: invoker word, argument count, argument descriptors in
order, return descriptor.  Unknown tags are errors. -/
def Descriptor.decode (ws : List Nat) : Except String Descriptor :=
  match ws with
  | [] => .error ("DescriptorDecodeFailure: empty stream")
  | t :: rest =>
    if t = CLOSURE then
      match rest with
      | shim :: dtor :: fl :: rest2 =>
        match decodeKind fl with
        | some kind =>
          match rest2 with
          | ft :: invoke :: argc :: rest3 =>
            if ft = FUNCTION then
              match decodeTys argc rest3 with
              | some (args, rest4) =>
                match decodeTy rest4 with
                | some (ret, _) =>
                  .ok (Descriptor.closure ⟨kind, shim, dtor, ⟨invoke, args, ret⟩⟩)
                | none => .error ("DescriptorDecodeFailure: bad return type")
              | none => .error ("DescriptorDecodeFailure: bad argument types")
            else .error ("DescriptorDecodeFailure: expected FUNCTION")
          | _ => .error ("DescriptorDecodeFailure: truncated function subtree")
        | none => .error ("DescriptorDecodeFailure: unknown flavor tag")
      | _ => .error ("DescriptorDecodeFailure: truncated closure")
    else .error ("DescriptorDecodeFailure: unknown leading tag")

/-! ### Runtime emitters (src/closure.rs and src/convert/closures.rs) -/

/-- Word stream of the `FUNCTION` subtree: the `WasmDescribe` impl generated by
`stack_closures!` for `Fn` types (src/convert/closures.rs lines 46-57) and,
with its own invoker monomorphization, for `FnMut` types (lines 95-106):
`inform(FUNCTION); inform(invoke); inform(cnt); args; ret`. -/
def wasmDescribeFnSig (s : FnSig) : List Nat :=
  FUNCTION :: s.invoke :: s.args.length ::
    ((s.args.map Ty.describeWords).flatten ++ s.ret.describeWords)

/-- Word stream of `<Fn(..) -> R as WasmClosure>::describe`
(src/closure.rs lines 312-357): invoker shim pointer, destructor pointer, `FN`,
then the signature subtree of the `Fn` trait object. -/
def wasmClosureDescribeFn (invokePtr destroyPtr : Nat) (s : FnSig) : List Nat :=
  invokePtr :: destroyPtr :: FN :: wasmDescribeFnSig s

/-- Word stream of `<FnMut(..) -> R as WasmClosure>::describe`
(src/closure.rs lines 359-405). -/
def wasmClosureDescribeFnMut (invokePtr destroyPtr : Nat) (s : FnSig) : List Nat :=
  invokePtr :: destroyPtr :: FN_MUT :: wasmDescribeFnSig s

/-- Word stream of the one-argument `FnOnce` impl (src/closure.rs lines
479-524); that impl inlines the `FUNCTION` subtree itself and informs the same
invoke pointer a second time.  The source fixes the arity at one argument. -/
def wasmClosureDescribeFnOnce (invokePtr destroyPtr : Nat) (s : FnSig) : List Nat :=
  invokePtr :: destroyPtr :: FN_ONCE :: FUNCTION :: invokePtr :: s.args.length ::
    ((s.args.map Ty.describeWords).flatten ++ s.ret.describeWords)

/-- Dispatch of `T::describe()` over the three trait families. -/
def wasmClosureDescribe (kind : ClosureKind) (invokePtr destroyPtr : Nat)
    (s : FnSig) : List Nat :=
  match kind with
  | .fn => wasmClosureDescribeFn invokePtr destroyPtr s
  | .fnMut => wasmClosureDescribeFnMut invokePtr destroyPtr s
  | .fnOnce => wasmClosureDescribeFnOnce invokePtr destroyPtr s

/-- Word stream of the monomorphized `describe::<T>` subprogram created inside
`Closure::wrap` (src/closure.rs lines 196-199):
`inform(CLOSURE); T::describe()`. -/
def closureWrapDescribe (kind : ClosureKind) (invokePtr destroyPtr : Nat)
    (s : FnSig) : List Nat :=
  CLOSURE :: wasmClosureDescribe kind invokePtr destroyPtr s

/-! ### The Js2Rust builder state -/

/-- Modelled from the spec: the `Js2Rust` builder
(crates/cli-support/src/js/js2rust.rs, absent from the sources).  Only the
accumulation of prelude fragments, finally fragments and rust arguments is
modelled; the argument-marshalling body it later emits is out of scope. -/
structure JsBuilder where
  preludeLines : List String
  finallyLines : List String
  rustArguments : List String
deriving DecidableEq, Repr

/-- Append one prelude fragment (the builder method `prelude`). -/
def JsBuilder.prelude (b : JsBuilder) (s : String) : JsBuilder :=
  { b with preludeLines := b.preludeLines ++ [s] }

/-- Append one finally fragment (the builder method `finally`). -/
def JsBuilder.finallyLine (b : JsBuilder) (s : String) : JsBuilder :=
  { b with finallyLines := b.finallyLines ++ [s] }

/-- Append one rust argument (the builder method `rust_argument`). -/
def JsBuilder.rust_argument (b : JsBuilder) (s : String) : JsBuilder :=
  { b with rustArguments := b.rustArguments ++ [s] }

/-- Builder state for the inner callable of one closure factory shim, following
crates/cli-support/src/js/closures.rs lines 181-201 statement by statement. -/
def buildClosureShim (kind : ClosureKind) : JsBuilder :=
  let builder : JsBuilder := { preludeLines := [], finallyLines := [], rustArguments := [] }
  let builder := builder.prelude ("this.cnt++;\n")
  let builder := builder.prelude ("const a = this.a;\n")
  let builder := builder.rust_argument ("a")
  let builder := builder.rust_argument ("b")
  let builder :=
    if kind = ClosureKind.fnMut ∨ kind = ClosureKind.fnOnce then
      let builder := builder.prelude ("this.a = 0;\n")
      if kind = ClosureKind.fnMut then builder.finallyLine ("this.a = a;\n")
      else builder
    else builder
  if kind ≠ ClosureKind.fnOnce then
    builder.finallyLine ("if (this.cnt-- == 1) d(a, b);")
  else builder

/-! ### Expressions -/

mutual
/-- Expression tree with stable identifiers, embedding the walrus IR shapes the
pass inspects: calls carry the callee function identifier; `block` stands for
any structured construct that merely owns child expressions. -/
inductive Expr where
  | const (id : Nat) (value : Int)
  | call (id : Nat) (func : Nat) (args : ExprList)
  | block (id : Nat) (exprs : ExprList)

/-- Lists of child expressions (kept mutual with `Expr` so that all recursion
over the tree is structural). -/
inductive ExprList where
  | nil
  | cons (head : Expr) (tail : ExprList)
end

/-- The stable identifier of an expression node. -/
def Expr.id : Expr → Nat
  | .const i _ => i
  | .call i _ _ => i
  | .block i _ => i

/-- Identifiers of the immediate children. -/
def ExprList.idsOf : ExprList → List Nat
  | .nil => []
  | .cons e es => e.id :: es.idsOf

mutual
/-- Identifiers of the call expressions targeting `wdc`, in visit order
(operands before the call itself, matching the visitor below); each matching
call contributes its own identifier. -/
def callIdsE (wdc : Nat) : Expr → List Nat
  | .const _ _ => []
  | .call i f args => callIdsL wdc args ++ (if f = wdc then [i] else [])
  | .block _ es => callIdsL wdc es

/-- List version of `callIdsE`. -/
def callIdsL (wdc : Nat) : ExprList → List Nat
  | .nil => []
  | .cons e es => callIdsE wdc e ++ callIdsL wdc es
end

/-- State of the `FindDescribeClosure` visitor: the current-expression cursor
and the recorded call, if any (closures.rs lines 101-106). -/
structure FindState where
  cur : Nat
  call : Option Nat
deriving DecidableEq, Repr

mutual
/-- The visitor `FindDescribeClosure` (closures.rs lines 108-126).  `visitE`
fuses `visit_expr_id` with the dispatched visit method: the cursor is saved,
set to this expression for the descent, and restored afterwards; `visit_call`
first visits the operands, then tests the callee and records the cursor,
asserting that no call was recorded before. -/
def visitE (wdc : Nat) (st : FindState) : Expr → Except String FindState
  | .const _ _ => .ok st
  | .block i es =>
    match visitL wdc { st with cur := i } es with
    | .ok st2 => .ok { st2 with cur := st.cur }
    | .error msg => .error msg
  | .call i f args =>
    match visitL wdc { st with cur := i } args with
    | .ok st2 =>
      if f = wdc then
        if st2.call.isSome then .error ("assertion failed: find.call.is_none()")
        else .ok { st2 with call := some st2.cur, cur := st.cur }
      else .ok { st2 with cur := st.cur }
    | .error msg => .error msg

/-- Visit a list of expressions in order, threading the state. -/
def visitL (wdc : Nat) (st : FindState) : ExprList → Except String FindState
  | .nil => .ok st
  | .cons e es =>
    match visitE wdc st e with
    | .ok st2 => visitL wdc st2 es
    | .error msg => .error msg
end

/-- Scanner for one local function (closures.rs lines 76-84): run the
`FindDescribeClosure` visitor from the entry block, the cursor initialized to
it, and return the recorded call expression identifier if any. -/
def findDescribeClosure (wdc : Nat) (body : Expr) : Except String (Option Nat) :=
  match visitE wdc { cur := body.id, call := none } body with
  | .ok st => .ok st.call
  | .error msg => .error msg

/-- Record identifiers one by one the way `visit_call` does: recording a second
one trips the assertion. -/
def recordAll : Option Nat → List Nat → Except String (Option Nat)
  | o, [] => .ok o
  | none, c :: cs => recordAll (some c) cs
  | some _, _ :: _ => .error ("assertion failed: find.call.is_none()")

mutual
/-- Look up a subexpression by identifier, first match in traversal order (the
walrus arena access `local.get_mut(instr.call)`). -/
def exprAtE (c : Nat) (e : Expr) : Option Expr :=
  if e.id = c then some e else
    match e with
    | .const _ _ => none
    | .call _ _ args => exprAtL c args
    | .block _ es => exprAtL c es

/-- List version of `exprAtE`. -/
def exprAtL (c : Nat) : ExprList → Option Expr
  | .nil => none
  | .cons e es =>
    match exprAtE c e with
    | some r => some r
    | none => exprAtL c es
end

mutual
/-- Replace the callee of the call expression with identifier `c` (the in-place
`e.func = id` mutation of inject_imports, closures.rs lines 227-233); all other
payload, every identifier and the tree shape are untouched. -/
def replaceCalleeE (c newF : Nat) : Expr → Expr
  | .const i v => .const i v
  | .call i f args => .call i (if i = c then newF else f) (replaceCalleeL c newF args)
  | .block i es => .block i (replaceCalleeL c newF es)

/-- List version of `replaceCalleeE`. -/
def replaceCalleeL (c newF : Nat) : ExprList → ExprList
  | .nil => .nil
  | .cons e es => .cons (replaceCalleeE c newF e) (replaceCalleeL c newF es)
end

/-- Shallow view of one expression node: its identifier, its own payload, and
the identifiers (not the contents) of its immediate children. -/
inductive ExprHead where
  | constH (id : Nat) (value : Int)
  | callH (id : Nat) (func : Nat) (args : List Nat)
  | blockH (id : Nat) (exprs : List Nat)
deriving DecidableEq, Repr

/-- The shallow view of a node. -/
def Expr.head : Expr → ExprHead
  | .const i v => .constH i v
  | .call i f args => .callH i f args.idsOf
  | .block i es => .blockH i es.idsOf

/-! ### The rewriter state -/

/-- One registered JS factory shim: the two table indices spliced into the
outer `function(a, b, _ignored)` text (closures.rs lines 204-216) and the built
inner-callable state. -/
structure JsShimExport where
  shim_idx : Nat
  dtor_idx : Nat
  js : JsBuilder
deriving DecidableEq, Repr

/-- One observable module mutation performed by the pass. -/
inductive Event where
  | clearSlot (idx : Nat)
  | addExport (func : Nat)
  | addImport (func : Nat)
  | retarget (func : Nat) (call : Nat)
deriving DecidableEq, Repr

/-- Is the event a function-table slot clearing? -/
def Event.isClear : Event → Bool
  | .clearSlot _ => true
  | _ => false

/-- Is the event a splicing mutation (export, import or call retargeting)? -/
def Event.isSplice : Event → Bool
  | .clearSlot _ => false
  | _ => true

/-- The slices of walrus `Module` state, of the interpreter handle and of the
JS glue state that the pass reads and writes (`Context` of
crates/cli-support/src/js).  The descriptor interpreter crate is not among the
sources; following the contract of spec section 4.3 it is carried as a function
from the enclosing-function identifier to the visited table slots and the
emitted word stream, `none` meaning interpretation failure. -/
structure Context where
  funcs : List (Nat × Expr)
  describeClosure : Option Nat
  tablePresent : Bool
  table : List (Option Nat)
  nextId : Nat
  interp : Nat → Option (List Nat × List Nat)
  newImports : List (String × String × Nat)
  exports : List (String × JsShimExport)
  addHeapExposed : Bool
  functionTableNeeded : Bool

/-- One record per discovered call site (closures.rs lines 49-52). -/
structure DescribeInstruction where
  call : Nat
  descriptor : Descriptor
deriving DecidableEq, Repr

/-- The scan result (closures.rs lines 33-47): table slots to remove and the map
from enclosing functions to their describe instruction, in function order. -/
structure ClosureDescriptors where
  element_removal_list : List Nat
  func_to_descriptor : List (Nat × DescribeInstruction)
deriving DecidableEq, Repr

/-- HashSet insertion for the element removal list: duplicates collapse. -/
def insertSlot (l : List Nat) (x : Nat) : List Nat :=
  if x ∈ l then l else l ++ [x]

/-- Insert every interpreter-visited slot. -/
def insertSlots (l : List Nat) (xs : List Nat) : List Nat :=
  xs.foldl insertSlot l

/-- Scan-and-interpret loop of `ClosureDescriptors::new` (closures.rs lines
75-97): scan each local function; on a hit run the interpreter (its `None` is
the `.unwrap()` panic), decode the words, accumulate slots and the map entry. -/
def newLoop (wdc : Nat) (interp : Nat → Option (List Nat × List Nat)) :
    List (Nat × Expr) → ClosureDescriptors → Except String ClosureDescriptors
  | [], ret => .ok ret
  | (id, body) :: rest, ret =>
    match findDescribeClosure wdc body with
    | .error msg => .error msg
    | .ok none => newLoop wdc interp rest ret
    | .ok (some call) =>
      match interp id with
      | none => .error ("interpret_closure_descriptor returned no descriptor")
      | some (slots, words) =>
        match Descriptor.decode words with
        | .error msg => .error msg
        | .ok descriptor =>
          newLoop wdc interp rest
            { element_removal_list := insertSlots ret.element_removal_list slots,
              func_to_descriptor := ret.func_to_descriptor ++ [(id, ⟨call, descriptor⟩)] }

/-- `ClosureDescriptors::new` (closures.rs lines 66-97): absence of the
describe-closure import yields the empty default. -/
def ClosureDescriptors.new (input : Context) : Except String ClosureDescriptors :=
  match input.describeClosure with
  | none => .ok ⟨[], []⟩
  | some wdc => newLoop wdc input.interp input.funcs ⟨[], []⟩

/-- Clearing loop of `delete_function_table_entries` (closures.rs lines
147-151): assert the slot is occupied, then replace it by the empty sentinel. -/
def deleteLoop : List Nat → List (Option Nat) → Except String (List (Option Nat) × List Event)
  | [], tbl => .ok (tbl, [])
  | idx :: rest, tbl =>
    match tbl[idx]? with
    | some (some _) =>
      match deleteLoop rest (tbl.set idx none) with
      | .ok (t, ev) => .ok (t, Event.clearSlot idx :: ev)
      | .error msg => .error msg
    | some none => .error ("assertion failed: table slot already empty")
    | none => .error ("table index out of bounds")

/-- `ClosureDescriptors::delete_function_table_entries` (closures.rs lines
137-152): a missing function table makes the whole step a no-op. -/
def ClosureDescriptors.delete_function_table_entries (info : ClosureDescriptors)
    (input : Context) : Except String (Context × List Event) :=
  if input.tablePresent then
    match deleteLoop info.element_removal_list input.table with
    | .ok (t, ev) => .ok ({ input with table := t }, ev)
    | .error msg => .error msg
  else .ok (input, [])

/-- Look up a local function body by identifier. -/
def lookupFunc (f : Nat) : List (Nat × Expr) → Option Expr
  | [] => none
  | p :: ps => if p.1 = f then some p.2 else lookupFunc f ps

/-- Replace the body of one local function. -/
def updateFunc (funcs : List (Nat × Expr)) (f : Nat) (body : Expr) :
    List (Nat × Expr) :=
  funcs.map (fun p => if p.1 = f then (p.1, body) else p)

/-- Retarget the recorded call expression (closures.rs lines 223-233): fetch
the expression by identifier, check it is a call to the describe-closure
placeholder, and swap in the new callee. -/
def retargetCall (wdc c newId : Nat) (body : Expr) : Except String Expr :=
  match exprAtE c body with
  | some (.call _ f _) =>
    if f = wdc then .ok (replaceCalleeE c newId body)
    else .error ("assertion failed: call targets a different function")
  | some _ => .error ("unreachable: expression is not a call")
  | none => .error ("unreachable: no such expression")

/-- Splicing loop of `inject_imports` (closures.rs lines 176-234): per hit,
derive the unique import name from the function index, build the JS factory
shim for the decoded flavor, register the export, add the import under the
placeholder namespace with a fresh identifier, and retarget the recorded call. -/
def injectLoop (wdc : Nat) :
    List (Nat × DescribeInstruction) → Context → Except String (Context × List Event)
  | [], input => .ok (input, [])
  | (func, instr) :: rest, input =>
    match instr.descriptor with
    | .closure closure =>
      let importName := "__wbindgen_closure_wrapper" ++ toString func
      let js := buildClosureShim closure.kind
      let input1 : Context :=
        { input with
            addHeapExposed := true
            functionTableNeeded := true
            exports := input.exports ++ [(importName, ⟨closure.shim_idx, closure.dtor_idx, js⟩)] }
      let id := input1.nextId
      let input2 : Context :=
        { input1 with
            newImports := input1.newImports ++ [("__wbindgen_placeholder__", importName, id)]
            nextId := id + 1 }
      match lookupFunc func input2.funcs with
      | none => .error ("unreachable: not a local function")
      | some body =>
        match retargetCall wdc instr.call id body with
        | .error msg => .error msg
        | .ok body2 =>
          let input3 : Context := { input2 with funcs := updateFunc input2.funcs func body2 }
          match injectLoop wdc rest input3 with
          | .ok (out, ev) =>
            .ok (out, Event.addExport func :: Event.addImport func ::
                  Event.retarget func instr.call :: ev)
          | .error msg => .error msg

/-- `ClosureDescriptors::inject_imports` (closures.rs lines 159-236). -/
def ClosureDescriptors.inject_imports (info : ClosureDescriptors) (input : Context) :
    Except String (Context × List Event) :=
  match input.describeClosure with
  | none => .ok (input, [])
  | some wdc => injectLoop wdc info.func_to_descriptor input

/-- The orchestrator `rewrite` (closures.rs lines 21-31).  Note the statement
order of the source: `delete_function_table_entries` runs before
`inject_imports`. -/
def rewrite (input : Context) : Except String (Context × List Event) :=
  match ClosureDescriptors.new input with
  | .error msg => .error msg
  | .ok info =>
    if info.element_removal_list.length = 0 then .ok (input, [])
    else
      match info.delete_function_table_entries input with
      | .error msg => .error msg
      | .ok (input1, ev1) =>
        match info.inject_imports input1 with
        | .ok (input2, ev2) => .ok (input2, ev1 ++ ev2)
        | .error msg => .error msg

/-! ### Derived notions used by the claims -/

/-- Clearing the removal set by pure folding (what `deleteLoop` computes when
every listed slot is occupied). -/
def applyRemovals (l : List Nat) (tbl : List (Option Nat)) : List (Option Nat) :=
  l.foldl (fun t i => t.set i none) tbl

/-- The ordering property claim C1 states over a mutation trace: every splicing mutation
occurs strictly before every table-slot clearing. -/
def splicingBeforeClearing (ev : List Event) : Prop :=
  ∀ (i j : Nat) (a b : Event), ev[i]? = some a → ev[j]? = some b →
    a.isSplice = true → b.isClear = true → i < j

/-- The opposite ordering: every table-slot clearing occurs strictly before
every splicing mutation. -/
def clearingBeforeSplicing (ev : List Event) : Prop :=
  ∀ (i j : Nat) (a b : Event), ev[i]? = some a → ev[j]? = some b →
    a.isClear = true → b.isSplice = true → i < j

/-- The interpreter contract of spec section 4.3: every successful
interpretation records at least the table slot of the descriptor itself. -/
def InterpAddsSlots (input : Context) : Prop :=
  ∀ f r, input.interp f = some r → r.1 ≠ []

/-- The scanner finds no describe-closure call site in any local function. -/
def scanFindsNoHits (input : Context) : Prop :=
  ∀ wdc, input.describeClosure = some wdc →
    ∀ p ∈ input.funcs, findDescribeClosure wdc p.2 = .ok none

/-! ### Concrete sample modules -/

/-- Word stream of spec scenario S2: a `Fn` closure, zero arguments, i32
return, invoker at slot 7, destructor at slot 8. -/
def words₀ : List Nat := [CLOSURE, 7, 8, FN, FUNCTION, 7, 0, I32]

/-- A local function whose body holds one describe-closure call (to import 5)
at expression identifier 2. -/
def body₀ : Expr :=
  .block 1 (.cons
    (.call 2 5 (.cons (.const 3 1) (.cons (.const 4 2) (.cons (.const 6 3) .nil))))
    .nil)

/-- Interpreter behaviour for the sample module: function 0 yields slot 3 and
the S2 word stream. -/
def interp₀ : Nat → Option (List Nat × List Nat) :=
  fun f => if f = 0 then some ([3], words₀) else none

/-- A sample module with one hit: local function 0, describe-closure import 5,
a four-slot function table whose slot 3 holds the describe function. -/
def ctx₀ : Context :=
  { funcs := [(0, body₀)]
    describeClosure := some 5
    tablePresent := true
    table := [some 0, some 0, some 0, some 9]
    nextId := 6
    interp := interp₀
    newImports := []
    exports := []
    addHeapExposed := false
    functionTableNeeded := false }

/-- The decoded S2 descriptor. -/
def desc₀ : Descriptor := .closure ⟨.fn, 7, 8, ⟨7, [], .i32⟩⟩

/-- The scan result on `ctx₀`. -/
def info₀ : ClosureDescriptors := ⟨[3], [(0, ⟨2, desc₀⟩)]⟩

/-- The mutation trace of `rewrite ctx₀`: the table slot is cleared first, then
the splicing mutations follow. -/
def trace₀ : List Event := [.clearSlot 3, .addExport 0, .addImport 0, .retarget 0 2]

/-- `body₀` after retargeting the call to the fresh import 6. -/
def body₀r : Expr :=
  .block 1 (.cons
    (.call 2 6 (.cons (.const 3 1) (.cons (.const 4 2) (.cons (.const 6 3) .nil))))
    .nil)

/-- `ctx₀` after the whole pass. -/
def ctxAfter₀ : Context :=
  { ctx₀ with
      funcs := [(0, body₀r)]
      table := [some 0, some 0, some 0, none]
      nextId := 7
      newImports := [("__wbindgen_placeholder__", "__wbindgen_closure_wrapper0", 6)]
      exports := [("__wbindgen_closure_wrapper0", ⟨7, 8, buildClosureShim .fn⟩)]
      addHeapExposed := true
      functionTableNeeded := true }

/-- `ctx₀` after table-entry deletion, before import injection. -/
def ctxd₀ : Context := { ctx₀ with table := [some 0, some 0, some 0, none] }

/-- A sample module without the describe-closure import. -/
def ctx₁ : Context :=
  { funcs := []
    describeClosure := none
    tablePresent := false
    table := []
    nextId := 0
    interp := fun _ => none
    newImports := []
    exports := []
    addHeapExposed := false
    functionTableNeeded := false }

/-- A removal set fixture for the table-accounting claim. -/
def info₆ : ClosureDescriptors := ⟨[1], []⟩

/-- A module fixture with a two-slot table. -/
def ctx₆ : Context := { ctx₁ with tablePresent := true, table := [some 5, some 6] }

/-- A function body with two describe-closure calls (to import 9). -/
def body₇ : Expr :=
  .block 0 (.cons (.call 1 9 .nil) (.cons (.call 2 9 .nil) .nil))

/-- A function body whose single describe-closure call (to import 5) sits
nested inside the operand list of an unrelated call. -/
def body₉ : Expr :=
  .block 0 (.cons (.call 1 9 (.cons (.call 2 5 (.cons (.const 3 7) .nil)) .nil)) .nil)

/-! ### Lemmas about the recording discipline -/

theorem recordAll_append (o : Option Nat) (xs ys : List Nat) :
    recordAll o (xs ++ ys) =
      match recordAll o xs with
      | .ok o2 => recordAll o2 ys
      | .error msg => .error msg := by
  induction xs generalizing o with
  | nil => simp [recordAll]
  | cons x xs ih =>
    cases o with
    | none => simpa [recordAll] using ih (some x)
    | some a => simp [recordAll]

theorem recordAll_none_eq_ok_none (ids : List Nat) :
    recordAll none ids = .ok none ↔ ids = [] := by
  match ids with
  | [] => simp [recordAll]
  | [a] => simp [recordAll]
  | a :: b :: rest => simp [recordAll]

theorem recordAll_none_eq_ok_some (ids : List Nat) (c : Nat) :
    recordAll none ids = .ok (some c) ↔ ids = [c] := by
  match ids with
  | [] => simp [recordAll]
  | [a] => simp [recordAll]
  | a :: b :: rest => simp [recordAll]

theorem recordAll_of_two (o : Option Nat) (a b : Nat) (rest : List Nat) :
    recordAll o (a :: b :: rest) = .error ("assertion failed: find.call.is_none()") := by
  cases o <;> simp [recordAll]

/-! ### Visitor correctness -/

mutual
theorem visitE_spec (wdc : Nat) (st : FindState) (e : Expr) :
    visitE wdc st e =
      match recordAll st.call (callIdsE wdc e) with
      | .ok o => .ok { cur := st.cur, call := o }
      | .error msg => .error msg := by
  cases e with
  | const i v => simp [visitE, callIdsE, recordAll]
  | block i es =>
    have h := visitL_spec wdc { st with cur := i } es
    simp only [visitE, callIdsE, h]
    cases recordAll st.call (callIdsL wdc es) <;> simp
  | call i f args =>
    have h := visitL_spec wdc { st with cur := i } args
    simp only [visitE, callIdsE, h]
    cases hr : recordAll st.call (callIdsL wdc args) with
    | error msg => simp [recordAll_append, hr]
    | ok o =>
      by_cases hf : f = wdc
      · subst hf
        cases o with
        | none => simp [recordAll_append, hr, recordAll]
        | some a => simp [recordAll_append, hr, recordAll]
      · simp [recordAll_append, hr, hf]

theorem visitL_spec (wdc : Nat) (st : FindState) (es : ExprList) :
    visitL wdc st es =
      match recordAll st.call (callIdsL wdc es) with
      | .ok o => .ok { cur := st.cur, call := o }
      | .error msg => .error msg := by
  cases es with
  | nil => simp [visitL, callIdsL, recordAll]
  | cons e tail =>
    have h1 := visitE_spec wdc st e
    simp only [visitL, callIdsL, h1]
    cases hr : recordAll st.call (callIdsE wdc e) with
    | error msg => simp [recordAll_append, hr]
    | ok o =>
      have h2 := visitL_spec wdc { cur := st.cur, call := o } tail
      simp only [h2]
      simp [recordAll_append, hr]
end

theorem findDescribeClosure_spec (wdc : Nat) (body : Expr) :
    findDescribeClosure wdc body = recordAll none (callIdsE wdc body) := by
  unfold findDescribeClosure
  rw [visitE_spec]
  cases recordAll none (callIdsE wdc body) <;> simp

theorem findDescribeClosure_eq_ok_none (wdc : Nat) (body : Expr) :
    findDescribeClosure wdc body = .ok none ↔ callIdsE wdc body = [] := by
  rw [findDescribeClosure_spec, recordAll_none_eq_ok_none]

/-- C7: during scanning, a local function whose body contains two or more call
expressions targeting the describe-closure import makes the pass fail with the
hard assertion error; with at most one such call the assertion never fires, the
visitor succeeds, and the recorded identifier (at most one, an `Option`) is
exactly the sole matching call when there is one. -/
theorem C7_assert_single_describe_call (wdc : Nat) (body : Expr) :
    (2 ≤ (callIdsE wdc body).length →
      findDescribeClosure wdc body = .error ("assertion failed: find.call.is_none()")) ∧
    ((callIdsE wdc body).length ≤ 1 →
      findDescribeClosure wdc body = .ok (callIdsE wdc body).head?) := by
  constructor
  · intro h2
    rw [findDescribeClosure_spec]
    match hids : callIdsE wdc body with
    | [] => rw [hids] at h2; simp at h2
    | [a] => rw [hids] at h2; simp at h2
    | a :: b :: rest => exact recordAll_of_two none a b rest
  · intro h1
    rw [findDescribeClosure_spec]
    match hids : callIdsE wdc body with
    | [] => simp [recordAll]
    | [a] => simp [recordAll]
    | a :: b :: rest => rw [hids] at h1; simp at h1

/-- Witness for C7 at a concrete two-call function body. -/
theorem C7_witness :
    findDescribeClosure 9 body₇ = .error ("assertion failed: find.call.is_none()") :=
  (C7_assert_single_describe_call 9 body₇).1 (by decide)

/-- C9: the identifier the scanner records is exactly the identifier of the
describe call expression itself — the visitor returns `some c` precisely when
the matching-call identifier list of the body is `[c]`, and `callIdsE` assigns each
matching call its own identifier, however deeply nested. -/
theorem C9_records_call_identifier (wdc : Nat) (body : Expr) (c : Nat) :
    findDescribeClosure wdc body = .ok (some c) ↔ callIdsE wdc body = [c] := by
  rw [findDescribeClosure_spec, recordAll_none_eq_ok_some]

/-! ### Descriptor roundtrip -/

theorem decodeTy_describeWords (t : Ty) (rest : List Nat) :
    decodeTy (t.describeWords ++ rest) = some (t, rest) := by
  induction t generalizing rest with
  | i32 => simp [Ty.describeWords, decodeTy]
  | anyref => simp [Ty.describeWords, decodeTy, ANYREF, I32]
  | ref t ih => simp [Ty.describeWords, decodeTy, REF, I32, ANYREF, ih]

theorem decodeTys_describeWords (args : List Ty) (rest : List Nat) :
    decodeTys args.length ((args.map Ty.describeWords).flatten ++ rest) =
      some (args, rest) := by
  induction args generalizing rest with
  | nil => simp [decodeTys]
  | cons t ts ih =>
    simp only [List.map_cons, List.flatten_cons, List.length_cons, List.append_assoc]
    simp [decodeTys, decodeTy_describeWords, ih]

/-- C3: for every `Fn` or `FnMut` closure type with up to seven arguments, the
word sequence emitted by the monomorphized describe subprogram is, in order,
the `CLOSURE` tag, the invoker-shim table word, the destructor table word, the
flavor tag, the `FUNCTION` tag, the signature invoker word, the argument count,
one descriptor per argument in order, then the return descriptor — and the
descriptor decoder parses exactly that sequence back into the same fields. -/
theorem C3_describe_word_order (kind : ClosureKind) (invokePtr destroyPtr : Nat)
    (s : FnSig) (hkind : kind = ClosureKind.fn ∨ kind = ClosureKind.fnMut)
    (hargs : s.args.length ≤ 7) :
    closureWrapDescribe kind invokePtr destroyPtr s =
      CLOSURE :: invokePtr :: destroyPtr :: kind.tagWord :: FUNCTION :: s.invoke ::
        s.args.length :: ((s.args.map Ty.describeWords).flatten ++ s.ret.describeWords) ∧
    Descriptor.decode (closureWrapDescribe kind invokePtr destroyPtr s) =
      .ok (Descriptor.closure ⟨kind, invokePtr, destroyPtr, s⟩) := by
  have hemit : closureWrapDescribe kind invokePtr destroyPtr s =
      CLOSURE :: invokePtr :: destroyPtr :: kind.tagWord :: FUNCTION :: s.invoke ::
        s.args.length :: ((s.args.map Ty.describeWords).flatten ++ s.ret.describeWords) := by
    rcases hkind with h | h <;> subst h <;>
      simp [closureWrapDescribe, wasmClosureDescribe, wasmClosureDescribeFn,
        wasmClosureDescribeFnMut, wasmDescribeFnSig, ClosureKind.tagWord]
  refine ⟨hemit, ?_⟩
  rw [hemit]
  have hkindtag : decodeKind kind.tagWord = some kind := by
    rcases hkind with h | h <;> subst h <;> simp [decodeKind, ClosureKind.tagWord, FN, FN_MUT]
  simp only [Descriptor.decode, CLOSURE, FUNCTION]
  simp only [show (4 : Nat) = 4 from rfl, if_pos rfl, hkindtag, if_pos rfl]
  rw [decodeTys_describeWords]
  have hret := decodeTy_describeWords s.ret []
  rw [List.append_nil] at hret
  simp [hret]

/-- Witness for C3 at a concrete one-argument `Fn` signature. -/
theorem C3_witness :
    Descriptor.decode (closureWrapDescribe ClosureKind.fn 7 8 ⟨9, [Ty.i32], Ty.anyref⟩) =
      .ok (Descriptor.closure ⟨ClosureKind.fn, 7, 8, ⟨9, [Ty.i32], Ty.anyref⟩⟩) :=
  (C3_describe_word_order ClosureKind.fn 7 8 ⟨9, [Ty.i32], Ty.anyref⟩
    (Or.inl rfl) (by decide)).2

/-- C2: the inner callable of the JS factory shim carries the prelude line
`this.a = 0;` exactly for `FnMut` and `FnOnce`, the finally restoration
`this.a = a;` exactly for `FnMut`, and the destructor finally branch
`if (this.cnt-- == 1) d(a, b);` exactly for the flavors other than `FnOnce`. -/
theorem C2_shim_flavor_lines (kind : ClosureKind) :
    (("this.a = 0;\n" ∈ (buildClosureShim kind).preludeLines) ↔
      (kind = ClosureKind.fnMut ∨ kind = ClosureKind.fnOnce)) ∧
    (("this.a = a;\n" ∈ (buildClosureShim kind).finallyLines) ↔ kind = ClosureKind.fnMut) ∧
    (("if (this.cnt-- == 1) d(a, b);" ∈ (buildClosureShim kind).finallyLines) ↔
      kind ≠ ClosureKind.fnOnce) := by
  cases kind <;> refine ⟨?_, ?_, ?_⟩ <;> decide

/-! ### Lemmas about callee replacement -/

theorem replaceCalleeE_id (c n : Nat) (e : Expr) : (replaceCalleeE c n e).id = e.id := by
  cases e <;> rfl

theorem replaceCalleeL_idsOf (c n : Nat) (es : ExprList) :
    (replaceCalleeL c n es).idsOf = es.idsOf := by
  cases es with
  | nil => rfl
  | cons e tail =>
    simp [replaceCalleeL, ExprList.idsOf, replaceCalleeE_id, replaceCalleeL_idsOf c n tail]

mutual
theorem exprAtE_replace_isSome (c n q : Nat) (e : Expr) :
    (exprAtE q (replaceCalleeE c n e)).isSome = (exprAtE q e).isSome := by
  cases e with
  | const i v =>
    by_cases h : i = q <;> simp [replaceCalleeE, exprAtE, Expr.id, h]
  | call i f args =>
    by_cases h : i = q <;>
      simp [replaceCalleeE, exprAtE, Expr.id, h, exprAtL_replace_isSome c n q args]
  | block i es =>
    by_cases h : i = q <;>
      simp [replaceCalleeE, exprAtE, Expr.id, h, exprAtL_replace_isSome c n q es]

theorem exprAtL_replace_isSome (c n q : Nat) (es : ExprList) :
    (exprAtL q (replaceCalleeL c n es)).isSome = (exprAtL q es).isSome := by
  cases es with
  | nil => rfl
  | cons e tail =>
    simp only [replaceCalleeL, exprAtL]
    cases he : exprAtE q e with
    | some r =>
      have h := exprAtE_replace_isSome c n q e
      rw [he] at h
      obtain ⟨r2, hr2⟩ := Option.isSome_iff_exists.mp h
      simp [hr2]
    | none =>
      have h := exprAtE_replace_isSome c n q e
      rw [he] at h
      have hnone : exprAtE q (replaceCalleeE c n e) = none := by
        cases hx : exprAtE q (replaceCalleeE c n e) <;> simp [hx] at h ⊢
      simp [hnone, he, exprAtL_replace_isSome c n q tail]
end

mutual
theorem exprAtE_replace_head (c n q : Nat) (hq : q ≠ c) (e : Expr) :
    (exprAtE q (replaceCalleeE c n e)).map Expr.head = (exprAtE q e).map Expr.head := by
  cases e with
  | const i v =>
    by_cases h : i = q <;> simp [replaceCalleeE, exprAtE, Expr.id, h]
  | call i f args =>
    by_cases h : i = q
    · have hic : i ≠ c := by rw [h]; exact hq
      simp [replaceCalleeE, exprAtE, Expr.id, h, Expr.head, replaceCalleeL_idsOf, hic, hq]
    · simp [replaceCalleeE, exprAtE, Expr.id, h, exprAtL_replace_head c n q hq args]
  | block i es =>
    by_cases h : i = q
    · simp [replaceCalleeE, exprAtE, Expr.id, h, Expr.head, replaceCalleeL_idsOf]
    · simp [replaceCalleeE, exprAtE, Expr.id, h, exprAtL_replace_head c n q hq es]

theorem exprAtL_replace_head (c n q : Nat) (hq : q ≠ c) (es : ExprList) :
    (exprAtL q (replaceCalleeL c n es)).map Expr.head = (exprAtL q es).map Expr.head := by
  cases es with
  | nil => rfl
  | cons e tail =>
    simp only [replaceCalleeL, exprAtL]
    cases he : exprAtE q e with
    | some r =>
      have hS := exprAtE_replace_isSome c n q e
      rw [he] at hS
      obtain ⟨r2, hr2⟩ := Option.isSome_iff_exists.mp hS
      have hH := exprAtE_replace_head c n q hq e
      rw [he, hr2] at hH
      simp at hH
      simp [hr2, hH]
    | none =>
      have hS := exprAtE_replace_isSome c n q e
      rw [he] at hS
      have hnone : exprAtE q (replaceCalleeE c n e) = none := by
        cases hx : exprAtE q (replaceCalleeE c n e) <;> simp [hx] at hS ⊢
      simp [hnone, he, exprAtL_replace_head c n q hq tail]
end

mutual
theorem exprAtE_replace_target (c n : Nat) (e : Expr) (f0 : Nat) (args0 : ExprList)
    (h : exprAtE c e = some (.call c f0 args0)) :
    exprAtE c (replaceCalleeE c n e) = some (.call c n (replaceCalleeL c n args0)) := by
  cases e with
  | const i v =>
    by_cases hic : i = c <;> simp [exprAtE, Expr.id, hic] at h
  | call i f args =>
    by_cases hic : i = c
    · rw [exprAtE] at h
      simp only [Expr.id, hic, if_pos] at h
      injection h with h
      cases h
      simp [replaceCalleeE, exprAtE, Expr.id, hic]
    · rw [exprAtE] at h
      simp only [Expr.id, hic, if_neg, ite_false] at h
      simp [replaceCalleeE, exprAtE, Expr.id, hic,
        exprAtL_replace_target c n args f0 args0 h]
  | block i es =>
    by_cases hic : i = c
    · simp [exprAtE, Expr.id, hic] at h
    · rw [exprAtE] at h
      simp only [Expr.id, hic, if_neg, ite_false] at h
      simp [replaceCalleeE, exprAtE, Expr.id, hic,
        exprAtL_replace_target c n es f0 args0 h]

theorem exprAtL_replace_target (c n : Nat) (es : ExprList) (f0 : Nat) (args0 : ExprList)
    (h : exprAtL c es = some (.call c f0 args0)) :
    exprAtL c (replaceCalleeL c n es) = some (.call c n (replaceCalleeL c n args0)) := by
  cases es with
  | nil => simp [exprAtL] at h
  | cons e tail =>
    rw [exprAtL] at h
    cases he : exprAtE c e with
    | some r =>
      rw [he] at h
      injection h with h
      subst h
      have hrec := exprAtE_replace_target c n e f0 args0 he
      simp [replaceCalleeL, exprAtL, hrec]
    | none =>
      rw [he] at h
      have hS := exprAtE_replace_isSome c n c e
      rw [he] at hS
      have hnone : exprAtE c (replaceCalleeE c n e) = none := by
        cases hx : exprAtE c (replaceCalleeE c n e) <;> simp [hx] at hS ⊢
      simp [replaceCalleeL, exprAtL, hnone,
        exprAtL_replace_target c n tail f0 args0 h]
end

mutual
theorem exprAtE_found_id (c : Nat) (e : Expr) (r : Expr) (h : exprAtE c e = some r) :
    r.id = c := by
  cases e with
  | const i v =>
    by_cases hic : i = c
    · rw [exprAtE] at h
      simp only [Expr.id, hic, if_pos] at h
      injection h with h
      subst h
      rfl
    · simp [exprAtE, Expr.id, hic] at h
  | call i f args =>
    by_cases hic : i = c
    · rw [exprAtE] at h
      simp only [Expr.id, hic, if_pos] at h
      injection h with h
      subst h
      rfl
    · rw [exprAtE] at h
      simp only [Expr.id, hic, if_neg, ite_false] at h
      exact exprAtL_found_id c args r h
  | block i es =>
    by_cases hic : i = c
    · rw [exprAtE] at h
      simp only [Expr.id, hic, if_pos] at h
      injection h with h
      subst h
      rfl
    · rw [exprAtE] at h
      simp only [Expr.id, hic, if_neg, ite_false] at h
      exact exprAtL_found_id c es r h

theorem exprAtL_found_id (c : Nat) (es : ExprList) (r : Expr) (h : exprAtL c es = some r) :
    r.id = c := by
  cases es with
  | nil => simp [exprAtL] at h
  | cons e tail =>
    rw [exprAtL] at h
    cases he : exprAtE c e with
    | some r2 =>
      rw [he] at h
      injection h with h
      subst h
      exact exprAtE_found_id c e r2 he
    | none =>
      rw [he] at h
      exact exprAtL_found_id c tail r h
end

mutual
theorem callIdsE_replace (wdc c n : Nat) (hn : n ≠ wdc) (e : Expr) :
    callIdsE wdc (replaceCalleeE c n e) = (callIdsE wdc e).filter (fun i => i != c) := by
  cases e with
  | const i v => simp [replaceCalleeE, callIdsE]
  | call i f args =>
    simp only [replaceCalleeE, callIdsE, List.filter_append,
      callIdsL_replace wdc c n hn args]
    congr 1
    by_cases hic : i = c
    · subst hic
      by_cases hf : f = wdc <;> simp [hf, hn]
    · by_cases hf : f = wdc <;> simp [hf, hic]
  | block i es => simp [replaceCalleeE, callIdsE, callIdsL_replace wdc c n hn es]

theorem callIdsL_replace (wdc c n : Nat) (hn : n ≠ wdc) (es : ExprList) :
    callIdsL wdc (replaceCalleeL c n es) = (callIdsL wdc es).filter (fun i => i != c) := by
  cases es with
  | nil => rfl
  | cons e tail =>
    simp [replaceCalleeL, callIdsL, List.filter_append,
      callIdsE_replace wdc c n hn e, callIdsL_replace wdc c n hn tail]
end

/-! ### Lemmas about the scan-and-interpret loop -/

theorem insertSlot_ne_nil (l : List Nat) (x : Nat) : insertSlot l x ≠ [] := by
  unfold insertSlot
  split
  · rename_i hx
    intro hl
    rw [hl] at hx
    exact absurd hx (List.not_mem_nil x)
  · simp

theorem insertSlots_ne_nil_of_ne_nil (l : List Nat) (xs : List Nat) (hl : l ≠ []) :
    insertSlots l xs ≠ [] := by
  induction xs generalizing l with
  | nil => exact hl
  | cons x xs ih => exact ih (insertSlot l x) (insertSlot_ne_nil l x)

theorem insertSlots_ne_nil (l : List Nat) (xs : List Nat) (hxs : xs ≠ []) :
    insertSlots l xs ≠ [] := by
  match xs with
  | [] => exact absurd rfl hxs
  | x :: rest =>
    show insertSlots (insertSlot l x) rest ≠ []
    exact insertSlots_ne_nil_of_ne_nil (insertSlot l x) rest (insertSlot_ne_nil l x)

theorem newLoop_no_hits (wdc : Nat) (interp : Nat → Option (List Nat × List Nat))
    (funcs : List (Nat × Expr)) (ret : ClosureDescriptors)
    (h : ∀ p ∈ funcs, findDescribeClosure wdc p.2 = .ok none) :
    newLoop wdc interp funcs ret = .ok ret := by
  induction funcs generalizing ret with
  | nil => rfl
  | cons p rest ih =>
    obtain ⟨id, body⟩ := p
    have hfind := h (id, body) (List.mem_cons_self _ _)
    simp only [newLoop, hfind]
    exact ih ret (fun q hq => h q (List.mem_cons_of_mem _ hq))

theorem newLoop_mono (wdc : Nat) (interp : Nat → Option (List Nat × List Nat))
    (funcs : List (Nat × Expr)) (ret info : ClosureDescriptors)
    (h : newLoop wdc interp funcs ret = .ok info) :
    ∀ x ∈ ret.func_to_descriptor, x ∈ info.func_to_descriptor := by
  induction funcs generalizing ret with
  | nil =>
    simp only [newLoop] at h
    injection h with h
    subst h
    exact fun x hx => hx
  | cons p rest ih =>
    obtain ⟨id, body⟩ := p
    cases hfind : findDescribeClosure wdc body with
    | error msg => simp [newLoop, hfind] at h
    | ok found =>
      cases found with
      | none =>
        simp only [newLoop, hfind] at h
        exact ih ret h
      | some call =>
        cases hint : interp id with
        | none => simp [newLoop, hfind, hint] at h
        | some sw =>
          obtain ⟨slots, words⟩ := sw
          cases hdec : Descriptor.decode words with
          | error msg => simp [newLoop, hfind, hint, hdec] at h
          | ok descriptor =>
            simp only [newLoop, hfind, hint, hdec] at h
            intro x hx
            exact ih _ h x (List.mem_append_left _ hx)

theorem newLoop_chars (wdc : Nat) (interp : Nat → Option (List Nat × List Nat))
    (funcs : List (Nat × Expr)) (ret info : ClosureDescriptors)
    (h : newLoop wdc interp funcs ret = .ok info) :
    ∀ p ∈ funcs, findDescribeClosure wdc p.2 = .ok none ∨
      ∃ instr, (p.1, instr) ∈ info.func_to_descriptor ∧
        findDescribeClosure wdc p.2 = .ok (some instr.call) := by
  induction funcs generalizing ret with
  | nil => intro p hp; exact absurd hp (List.not_mem_nil p)
  | cons q rest ih =>
    obtain ⟨id, body⟩ := q
    cases hfind : findDescribeClosure wdc body with
    | error msg => simp [newLoop, hfind] at h
    | ok found =>
      cases found with
      | none =>
        simp only [newLoop, hfind] at h
        intro p hp
        rcases List.mem_cons.mp hp with hp | hp
        · subst hp; exact Or.inl hfind
        · exact ih ret h p hp
      | some call =>
        cases hint : interp id with
        | none => simp [newLoop, hfind, hint] at h
        | some sw =>
          obtain ⟨slots, words⟩ := sw
          cases hdec : Descriptor.decode words with
          | error msg => simp [newLoop, hfind, hint, hdec] at h
          | ok descriptor =>
            simp only [newLoop, hfind, hint, hdec] at h
            intro p hp
            rcases List.mem_cons.mp hp with hp | hp
            · subst hp
              refine Or.inr ⟨⟨call, descriptor⟩, ?_, hfind⟩
              exact newLoop_mono wdc interp rest _ info h (id, ⟨call, descriptor⟩)
                (List.mem_append_right _ (List.mem_singleton.mpr rfl))
            · exact ih _ h p hp

theorem newLoop_keys (wdc : Nat) (interp : Nat → Option (List Nat × List Nat))
    (funcs : List (Nat × Expr)) (ret info : ClosureDescriptors)
    (h : newLoop wdc interp funcs ret = .ok info) :
    ∃ s, info.func_to_descriptor.map Prod.fst = ret.func_to_descriptor.map Prod.fst ++ s ∧
      s.Sublist (funcs.map Prod.fst) := by
  induction funcs generalizing ret with
  | nil =>
    simp only [newLoop] at h
    injection h with h
    subst h
    exact ⟨[], by simp⟩
  | cons q rest ih =>
    obtain ⟨id, body⟩ := q
    cases hfind : findDescribeClosure wdc body with
    | error msg => simp [newLoop, hfind] at h
    | ok found =>
      cases found with
      | none =>
        simp only [newLoop, hfind] at h
        obtain ⟨s, hs, hsub⟩ := ih ret h
        exact ⟨s, hs, hsub.cons id⟩
      | some call =>
        cases hint : interp id with
        | none => simp [newLoop, hfind, hint] at h
        | some sw =>
          obtain ⟨slots, words⟩ := sw
          cases hdec : Descriptor.decode words with
          | error msg => simp [newLoop, hfind, hint, hdec] at h
          | ok descriptor =>
            simp only [newLoop, hfind, hint, hdec] at h
            obtain ⟨s, hs, hsub⟩ := ih _ h
            refine ⟨id :: s, ?_, hsub.cons₂ id⟩
            simp only [List.map_append, List.map_cons, List.map_nil] at hs
            rw [hs, List.append_assoc]
            rfl

theorem newLoop_removal_nil (wdc : Nat) (interp : Nat → Option (List Nat × List Nat))
    (funcs : List (Nat × Expr)) (ret info : ClosureDescriptors)
    (hI : ∀ f r, interp f = some r → r.1 ≠ [])
    (h : newLoop wdc interp funcs ret = .ok info)
    (hnil : info.element_removal_list = []) : ret = info := by
  induction funcs generalizing ret with
  | nil => exact Except.ok.inj h
  | cons q rest ih =>
    obtain ⟨id, body⟩ := q
    cases hfind : findDescribeClosure wdc body with
    | error msg => simp [newLoop, hfind] at h
    | ok found =>
      cases found with
      | none =>
        simp only [newLoop, hfind] at h
        exact ih ret h
      | some call =>
        cases hint : interp id with
        | none => simp [newLoop, hfind, hint] at h
        | some sw =>
          obtain ⟨slots, words⟩ := sw
          cases hdec : Descriptor.decode words with
          | error msg => simp [newLoop, hfind, hint, hdec] at h
          | ok descriptor =>
            simp only [newLoop, hfind, hint, hdec] at h
            have hret := ih _ h
            exfalso
            have hslots : slots ≠ [] := hI id (slots, words) hint
            have : insertSlots ret.element_removal_list slots ≠ [] :=
              insertSlots_ne_nil _ _ hslots
            apply this
            have := congrArg ClosureDescriptors.element_removal_list hret
            simp only at this
            rw [this, hnil]

theorem newLoop_map_nil (wdc : Nat) (interp : Nat → Option (List Nat × List Nat))
    (funcs : List (Nat × Expr)) (ret info : ClosureDescriptors)
    (h : newLoop wdc interp funcs ret = .ok info)
    (hnil : info.func_to_descriptor = []) : ret = info := by
  induction funcs generalizing ret with
  | nil => exact Except.ok.inj h
  | cons q rest ih =>
    obtain ⟨id, body⟩ := q
    cases hfind : findDescribeClosure wdc body with
    | error msg => simp [newLoop, hfind] at h
    | ok found =>
      cases found with
      | none =>
        simp only [newLoop, hfind] at h
        exact ih ret h
      | some call =>
        cases hint : interp id with
        | none => simp [newLoop, hfind, hint] at h
        | some sw =>
          obtain ⟨slots, words⟩ := sw
          cases hdec : Descriptor.decode words with
          | error msg => simp [newLoop, hfind, hint, hdec] at h
          | ok descriptor =>
            simp only [newLoop, hfind, hint, hdec] at h
            exfalso
            have hmem : (id, (⟨call, descriptor⟩ : DescribeInstruction)) ∈
                info.func_to_descriptor :=
              newLoop_mono wdc interp rest _ info h _
                (List.mem_append_right _ (List.mem_singleton.mpr rfl))
            rw [hnil] at hmem
            exact absurd hmem (List.not_mem_nil _)

/-- C5: if the module does not import the describe-closure placeholder, or if
the scanner finds no call to it in any local function, then `rewrite` returns
success and performs no mutation of the module (same context, empty trace). -/
theorem C5_no_op_success (input : Context)
    (h : input.describeClosure = none ∨
      ∃ wdc, input.describeClosure = some wdc ∧
        ∀ p ∈ input.funcs, findDescribeClosure wdc p.2 = .ok none) :
    rewrite input = .ok (input, []) := by
  rcases h with h | ⟨wdc, hdc, hnone⟩
  · simp [rewrite, ClosureDescriptors.new, h]
  · simp [rewrite, ClosureDescriptors.new, hdc,
      newLoop_no_hits wdc input.interp input.funcs ⟨[], []⟩ hnone]

/-- Witness for C5 at a module without the describe-closure import. -/
theorem C5_witness : rewrite ctx₁ = .ok (ctx₁, []) :=
  C5_no_op_success ctx₁ (Or.inl rfl)

/-- C10: under the interpreter contract (a successful interpretation records at
least one table slot), the removal set of a completed scan is empty exactly
when the function-to-descriptor map is, and the map is empty exactly when the
scanner found no describe-closure call site — so the early-return test of
`rewrite` on emptiness of the removal set is a faithful test for the absence of
call sites. -/
theorem C10_removal_empty_iff_no_hits (input : Context) (info : ClosureDescriptors)
    (hI : InterpAddsSlots input)
    (h : ClosureDescriptors.new input = .ok info) :
    (info.element_removal_list = [] ↔ info.func_to_descriptor = []) ∧
    (info.func_to_descriptor = [] ↔ scanFindsNoHits input) := by
  cases hdc : input.describeClosure with
  | none =>
    simp only [ClosureDescriptors.new, hdc] at h
    injection h with h
    subst h
    constructor
    · simp
    · constructor
      · intro _ wdc hwdc
        rw [hdc] at hwdc
        exact absurd hwdc (by simp)
      · intro _
        rfl
  | some wdc =>
    simp only [ClosureDescriptors.new, hdc] at h
    constructor
    · constructor
      · intro hnil
        have := newLoop_removal_nil wdc input.interp input.funcs ⟨[], []⟩ info hI h hnil
        rw [← this]
      · intro hnil
        have := newLoop_map_nil wdc input.interp input.funcs ⟨[], []⟩ info h hnil
        rw [← this]
    · constructor
      · intro hnil
        intro wdc2 hwdc2
        rw [hdc] at hwdc2
        injection hwdc2 with hwdc2
        subst hwdc2
        intro p hp
        rcases newLoop_chars wdc input.interp input.funcs ⟨[], []⟩ info h p hp with
          hok | ⟨instr, hmem, _⟩
        · exact hok
        · rw [hnil] at hmem
          exact absurd hmem (List.not_mem_nil _)
      · intro hscan
        have hnone := hscan wdc hdc
        have := newLoop_no_hits wdc input.interp input.funcs ⟨[], []⟩ hnone
        rw [this] at h
        injection h with h
        rw [← h]

/-- Witness for C10 at the concrete one-hit module. -/
theorem C10_witness :
    (info₀.element_removal_list = [] ↔ info₀.func_to_descriptor = []) ∧
    (info₀.func_to_descriptor = [] ↔ scanFindsNoHits ctx₀) :=
  C10_removal_empty_iff_no_hits ctx₀ info₀
    (by
      intro f r hr
      unfold ctx₀ interp₀ at hr
      simp only at hr
      by_cases hf : f = 0
      · rw [if_pos hf] at hr
        injection hr with hr
        rw [← hr]
        simp
      · rw [if_neg hf] at hr
        exact absurd hr (by simp))
    (by rfl)

/-! ### Lemmas about table-entry deletion -/

theorem applyRemovals_nil (tbl : List (Option Nat)) : applyRemovals [] tbl = tbl := rfl

theorem applyRemovals_cons (idx : Nat) (rest : List Nat) (tbl : List (Option Nat)) :
    applyRemovals (idx :: rest) tbl = applyRemovals rest (tbl.set idx none) := rfl

theorem applyRemovals_length (l : List Nat) (tbl : List (Option Nat)) :
    (applyRemovals l tbl).length = tbl.length := by
  induction l generalizing tbl with
  | nil => rfl
  | cons idx rest ih => rw [applyRemovals_cons, ih, List.length_set]

theorem applyRemovals_frame (l : List Nat) (tbl : List (Option Nat)) (j : Nat)
    (hj : j ∉ l) : (applyRemovals l tbl)[j]? = tbl[j]? := by
  induction l generalizing tbl with
  | nil => rfl
  | cons idx rest ih =>
    rw [applyRemovals_cons, ih (tbl.set idx none) (fun hm => hj (List.mem_cons_of_mem _ hm))]
    refine List.getElem?_set_ne ?_
    intro he
    exact hj (by rw [← he]; exact List.mem_cons_self idx rest)

theorem applyRemovals_cleared (l : List Nat) (tbl : List (Option Nat))
    (hnd : l.Nodup) (hlt : ∀ i ∈ l, i < tbl.length) :
    ∀ i ∈ l, (applyRemovals l tbl)[i]? = some none := by
  induction l generalizing tbl with
  | nil => intro i hi; exact absurd hi (List.not_mem_nil i)
  | cons idx rest ih =>
    intro i hi
    rcases List.mem_cons.mp hi with hi | hi
    · subst hi
      rw [applyRemovals_cons,
        applyRemovals_frame rest (tbl.set i none) i (List.Nodup.not_mem hnd)]
      exact List.getElem?_set_self (hlt i (List.mem_cons_self _ _))
    · rw [applyRemovals_cons]
      refine ih (tbl.set idx none) (List.Nodup.of_cons hnd) ?_ i hi
      intro k hk
      rw [List.length_set]
      exact hlt k (List.mem_cons_of_mem _ hk)

theorem deleteLoop_ok (l : List Nat) (tbl : List (Option Nat))
    (hnd : l.Nodup) (hocc : ∀ i ∈ l, ∃ v, tbl[i]? = some (some v)) :
    deleteLoop l tbl = .ok (applyRemovals l tbl, l.map Event.clearSlot) := by
  induction l generalizing tbl with
  | nil => rfl
  | cons idx rest ih =>
    obtain ⟨v, hv⟩ := hocc idx (List.mem_cons_self _ _)
    rw [deleteLoop, hv]
    have hrest : ∀ i ∈ rest, ∃ w, (tbl.set idx none)[i]? = some (some w) := by
      intro i hi
      have hne : idx ≠ i := fun he => (List.Nodup.not_mem hnd) (he ▸ hi)
      rw [List.getElem?_set_ne hne]
      exact hocc i (List.mem_cons_of_mem _ hi)
    rw [ih (tbl.set idx none) (List.Nodup.of_cons hnd) hrest]
    rw [applyRemovals_cons]
    rfl

theorem deleteLoop_error (l : List Nat) (tbl : List (Option Nat))
    (h : ∃ i ∈ l, tbl[i]? = some none) :
    ∃ msg, deleteLoop l tbl = .error msg := by
  induction l generalizing tbl with
  | nil =>
    obtain ⟨i, hi, _⟩ := h
    exact absurd hi (List.not_mem_nil i)
  | cons idx rest ih =>
    obtain ⟨i, hi, hnone⟩ := h
    cases hg : tbl[idx]? with
    | none => exact ⟨"table index out of bounds", by rw [deleteLoop, hg]⟩
    | some slot =>
      cases slot with
      | none => exact ⟨"assertion failed: table slot already empty", by rw [deleteLoop, hg]⟩
      | some v =>
        have hne : i ≠ idx := by
          intro he
          rw [he, hg] at hnone
          exact absurd (Option.some.inj hnone) (by simp)
        have hi2 : i ∈ rest := by
          rcases List.mem_cons.mp hi with hcase | hcase
          · exact absurd hcase hne
          · exact hcase
        have hnone2 : (tbl.set idx none)[i]? = some none := by
          rw [List.getElem?_set_ne (fun he => hne he.symm)]
          exact hnone
        obtain ⟨msg, hmsg⟩ := ih (tbl.set idx none) ⟨i, hi2, hnone2⟩
        exact ⟨msg, by rw [deleteLoop, hg, hmsg]⟩

theorem deleteLoop_events (l : List Nat) (tbl t : List (Option Nat)) (ev : List Event)
    (h : deleteLoop l tbl = .ok (t, ev)) : ∀ x ∈ ev, x.isClear = true := by
  induction l generalizing tbl t ev with
  | nil =>
    simp only [deleteLoop] at h
    injection h with h
    rw [← (Prod.mk.injEq _ _ _ _ |>.mp h).2]
    intro x hx
    exact absurd hx (List.not_mem_nil x)
  | cons idx rest ih =>
    cases hg : tbl[idx]? with
    | none => simp [deleteLoop, hg] at h
    | some slot =>
      cases slot with
      | none => simp [deleteLoop, hg] at h
      | some v =>
        rw [deleteLoop, hg] at h
        cases hrec : deleteLoop rest (tbl.set idx none) with
        | error msg => rw [hrec] at h; exact absurd h (by simp)
        | ok te =>
          obtain ⟨t2, ev2⟩ := te
          rw [hrec] at h
          injection h with h
          have hev : ev = Event.clearSlot idx :: ev2 :=
            ((Prod.mk.injEq _ _ _ _).mp h).2.symm
          rw [hev]
          intro x hx
          rcases List.mem_cons.mp hx with hx | hx
          · subst hx; rfl
          · exact ih (tbl.set idx none) t2 ev2 hrec x hx

theorem delete_entries_frame (info : ClosureDescriptors) (input out : Context)
    (ev : List Event)
    (h : info.delete_function_table_entries input = .ok (out, ev)) :
    out.funcs = input.funcs ∧ out.describeClosure = input.describeClosure ∧
    out.interp = input.interp ∧ out.nextId = input.nextId ∧
    out.newImports = input.newImports ∧ (∀ x ∈ ev, x.isClear = true) := by
  unfold ClosureDescriptors.delete_function_table_entries at h
  by_cases htp : input.tablePresent
  · rw [if_pos htp] at h
    cases hdl : deleteLoop info.element_removal_list input.table with
    | error msg => rw [hdl] at h; exact absurd h (by simp)
    | ok te =>
      obtain ⟨t, ev2⟩ := te
      rw [hdl] at h
      injection h with h
      obtain ⟨hout, hev⟩ := (Prod.mk.injEq _ _ _ _).mp h
      rw [← hout, ← hev]
      exact ⟨rfl, rfl, rfl, rfl, rfl, deleteLoop_events _ _ _ _ hdl⟩
  · rw [if_neg htp] at h
    injection h with h
    obtain ⟨hout, hev⟩ := (Prod.mk.injEq _ _ _ _).mp h
    rw [← hout, ← hev]
    exact ⟨rfl, rfl, rfl, rfl, rfl, fun x hx => absurd hx (List.not_mem_nil x)⟩

/-- C6: applying the `TableSlotRemovalSet` clears exactly the recorded indices:
when every listed slot is occupied the step succeeds, each listed slot is
replaced in place by the empty sentinel, the table keeps its length (no slot is
renumbered or shifted) and every unlisted slot is unchanged; a listed slot that
is already empty makes the step a hard error. -/
theorem C6_table_accounting (info : ClosureDescriptors) (input : Context)
    (htp : input.tablePresent = true) (hnd : info.element_removal_list.Nodup) :
    ((∀ i ∈ info.element_removal_list, ∃ v, input.table[i]? = some (some v)) →
      info.delete_function_table_entries input =
        .ok ({ input with table := applyRemovals info.element_removal_list input.table },
          info.element_removal_list.map Event.clearSlot) ∧
      (applyRemovals info.element_removal_list input.table).length = input.table.length ∧
      (∀ i ∈ info.element_removal_list,
        (applyRemovals info.element_removal_list input.table)[i]? = some none) ∧
      (∀ j, j ∉ info.element_removal_list →
        (applyRemovals info.element_removal_list input.table)[j]? = input.table[j]?)) ∧
    ((∃ i ∈ info.element_removal_list, input.table[i]? = some none) →
      ∃ msg, info.delete_function_table_entries input = .error msg) := by
  constructor
  · intro hocc
    have hlt : ∀ i ∈ info.element_removal_list, i < input.table.length := by
      intro i hi
      obtain ⟨v, hv⟩ := hocc i hi
      exact (List.getElem?_eq_some_iff.mp hv).1
    refine ⟨?_, applyRemovals_length _ _, applyRemovals_cleared _ _ hnd hlt,
      fun j hj => applyRemovals_frame _ _ j hj⟩
    unfold ClosureDescriptors.delete_function_table_entries
    rw [if_pos htp, deleteLoop_ok info.element_removal_list input.table hnd hocc]
  · intro hempty
    obtain ⟨msg, hmsg⟩ := deleteLoop_error info.element_removal_list input.table hempty
    refine ⟨msg, ?_⟩
    unfold ClosureDescriptors.delete_function_table_entries
    rw [if_pos htp, hmsg]

/-- Witness for C6 at a concrete two-slot table with one removal. -/
theorem C6_witness :
    info₆.delete_function_table_entries ctx₆ =
      .ok ({ ctx₆ with table := applyRemovals info₆.element_removal_list ctx₆.table },
        info₆.element_removal_list.map Event.clearSlot) :=
  ((C6_table_accounting info₆ ctx₆ rfl (by decide)).1
    (by
      intro i hi
      have : i = 1 := by
        cases List.mem_singleton.mp hi
        rfl
      subst this
      exact ⟨6, rfl⟩)).1

/-! ### Lemmas about splicing -/

theorem updateFunc_map_fst (funcs : List (Nat × Expr)) (f : Nat) (body : Expr) :
    (updateFunc funcs f body).map Prod.fst = funcs.map Prod.fst := by
  induction funcs with
  | nil => rfl
  | cons p ps ih =>
    simp only [updateFunc, List.map_cons] at ih ⊢
    by_cases h : p.1 = f <;> simp [h, ih]

theorem lookupFunc_updateFunc_self (funcs : List (Nat × Expr)) (f : Nat)
    (body b0 : Expr) (h : lookupFunc f funcs = some b0) :
    lookupFunc f (updateFunc funcs f body) = some body := by
  induction funcs with
  | nil => simp [lookupFunc] at h
  | cons p ps ih =>
    by_cases hp : p.1 = f
    · simp [updateFunc, lookupFunc, hp]
    · rw [lookupFunc, if_neg hp] at h
      have hrec := ih h
      simpa [updateFunc, lookupFunc, hp] using hrec

theorem lookupFunc_updateFunc_other (funcs : List (Nat × Expr)) (f q : Nat)
    (body : Expr) (hne : q ≠ f) :
    lookupFunc q (updateFunc funcs f body) = lookupFunc q funcs := by
  induction funcs with
  | nil => rfl
  | cons p ps ih =>
    by_cases hp : p.1 = f
    · have hpq : p.1 ≠ q := fun he => hne (by rw [← he, hp])
      simp only [updateFunc, List.map_cons, if_pos hp, lookupFunc]
      rw [if_neg hpq, if_neg hpq]
      exact ih
    · simp only [updateFunc, List.map_cons, if_neg hp, lookupFunc]
      by_cases hq : p.1 = q
      · rw [if_pos hq, if_pos hq]
      · rw [if_neg hq, if_neg hq]
        exact ih

theorem lookupFunc_of_mem_nodup (funcs : List (Nat × Expr))
    (hnd : (funcs.map Prod.fst).Nodup) (f : Nat) (x : Expr)
    (hmem : (f, x) ∈ funcs) : lookupFunc f funcs = some x := by
  induction funcs with
  | nil => exact absurd hmem (List.not_mem_nil _)
  | cons p ps ih =>
    rcases List.mem_cons.mp hmem with hmem | hmem
    · rw [← hmem]
      simp [lookupFunc]
    · by_cases hp : p.1 = f
      · exfalso
        have hin : f ∈ ps.map Prod.fst := List.mem_map.mpr ⟨(f, x), hmem, rfl⟩
        rw [List.map_cons] at hnd
        exact (List.nodup_cons.mp hnd).1 (hp ▸ hin)
      · rw [lookupFunc, if_neg hp]
        rw [List.map_cons] at hnd
        exact ih (List.nodup_cons.mp hnd).2 hmem

theorem retargetCall_ok (wdc c nid : Nat) (body body2 : Expr)
    (h : retargetCall wdc c nid body = .ok body2) :
    ∃ args, exprAtE c body = some (.call c wdc args) ∧
      body2 = replaceCalleeE c nid body := by
  unfold retargetCall at h
  cases hat : exprAtE c body with
  | none => rw [hat] at h; exact absurd h (by simp)
  | some e =>
    cases e with
    | const i v => simp [hat] at h
    | block i es => simp [hat] at h
    | call i f args =>
      have hid : (Expr.call i f args).id = c := exprAtE_found_id c body _ hat
      simp only [Expr.id] at hid
      subst hid
      simp only [hat] at h
      by_cases hf : f = wdc
      · subst hf
        rw [if_pos rfl] at h
        refine ⟨args, ?_, ?_⟩
        · rfl
        · exact (Except.ok.inj h).symm
      · rw [if_neg hf] at h
        exact absurd h (by simp)

theorem injectLoop_frame (wdc : Nat) (entries : List (Nat × DescribeInstruction))
    (input out : Context) (ev : List Event)
    (h : injectLoop wdc entries input = .ok (out, ev)) :
    out.funcs.map Prod.fst = input.funcs.map Prod.fst ∧
    out.describeClosure = input.describeClosure ∧
    out.interp = input.interp ∧
    input.nextId ≤ out.nextId ∧
    (∀ x ∈ input.newImports, x ∈ out.newImports) ∧
    (∀ x ∈ ev, x.isSplice = true) := by
  induction entries generalizing input out ev with
  | nil =>
    simp only [injectLoop] at h
    injection h with h
    obtain ⟨h1, h2⟩ := (Prod.mk.injEq _ _ _ _).mp h
    subst h1
    subst h2
    exact ⟨rfl, rfl, rfl, Nat.le_refl _, fun x hx => hx,
      fun x hx => absurd hx (List.not_mem_nil x)⟩
  | cons e rest ih =>
    obtain ⟨func, instr⟩ := e
    cases hdesc : instr.descriptor with
    | closure clos =>
      simp only [injectLoop, hdesc] at h
      split at h
      · exact Except.noConfusion h
      · rename_i body hlook
        split at h
        · exact Except.noConfusion h
        · rename_i body2 hret
          split at h
          · rename_i out2 ev2 hrec
            injection h with h
            obtain ⟨h1, h2⟩ := (Prod.mk.injEq _ _ _ _).mp h
            subst h1
            subst h2
            have IH := ih _ _ _ hrec
            refine ⟨?_, ?_, ?_, ?_, ?_, ?_⟩
            · exact IH.1.trans (updateFunc_map_fst input.funcs func body2)
            · exact IH.2.1
            · exact IH.2.2.1
            · exact Nat.le_trans (Nat.le_succ _) IH.2.2.2.1
            · intro x hx
              exact IH.2.2.2.2.1 x (List.mem_append_left _ hx)
            · intro x hx
              rcases List.mem_cons.mp hx with hx | hx
              · subst hx; rfl
              rcases List.mem_cons.mp hx with hx | hx
              · subst hx; rfl
              rcases List.mem_cons.mp hx with hx | hx
              · subst hx; rfl
              · exact IH.2.2.2.2.2 x hx
          · exact Except.noConfusion h

theorem injectLoop_untouched (wdc : Nat) (entries : List (Nat × DescribeInstruction))
    (input out : Context) (ev : List Event) (f : Nat)
    (h : injectLoop wdc entries input = .ok (out, ev))
    (hf : f ∉ entries.map Prod.fst) :
    lookupFunc f out.funcs = lookupFunc f input.funcs := by
  induction entries generalizing input out ev with
  | nil =>
    simp only [injectLoop] at h
    injection h with h
    rw [← ((Prod.mk.injEq _ _ _ _).mp h).1]
  | cons e rest ih =>
    obtain ⟨func, instr⟩ := e
    have hne : f ≠ func := by
      intro he
      exact hf (by rw [he]; exact List.mem_cons_self _ _)
    have hf2 : f ∉ rest.map Prod.fst := fun hm => hf (List.mem_cons_of_mem _ hm)
    cases hdesc : instr.descriptor with
    | closure clos =>
      simp only [injectLoop, hdesc] at h
      split at h
      · exact Except.noConfusion h
      · rename_i body hlook
        split at h
        · exact Except.noConfusion h
        · rename_i body2 hret
          split at h
          · rename_i out2 ev2 hrec
            injection h with h
            obtain ⟨h1, _⟩ := (Prod.mk.injEq _ _ _ _).mp h
            subst h1
            have IH := ih _ _ _ hrec hf2
            refine IH.trans ?_
            exact lookupFunc_updateFunc_other input.funcs func f body2 hne
          · exact Except.noConfusion h

theorem injectLoop_hits (wdc : Nat) (entries : List (Nat × DescribeInstruction))
    (input out : Context) (ev : List Event)
    (hek : (entries.map Prod.fst).Nodup)
    (h : injectLoop wdc entries input = .ok (out, ev)) :
    ∀ f instr, (f, instr) ∈ entries →
      ∃ body args newId,
        lookupFunc f input.funcs = some body ∧
        exprAtE instr.call body = some (.call instr.call wdc args) ∧
        input.nextId ≤ newId ∧
        ("__wbindgen_placeholder__", "__wbindgen_closure_wrapper" ++ toString f, newId) ∈
          out.newImports ∧
        lookupFunc f out.funcs = some (replaceCalleeE instr.call newId body) := by
  induction entries generalizing input out ev with
  | nil =>
    intro f instr hmem
    exact absurd hmem (List.not_mem_nil _)
  | cons e rest ih =>
    obtain ⟨func, instr0⟩ := e
    have hek2 : (rest.map Prod.fst).Nodup := by
      rw [List.map_cons] at hek
      exact (List.nodup_cons.mp hek).2
    have hfunc_not : func ∉ rest.map Prod.fst := by
      rw [List.map_cons] at hek
      exact (List.nodup_cons.mp hek).1
    cases hdesc : instr0.descriptor with
    | closure clos =>
      simp only [injectLoop, hdesc] at h
      split at h
      · exact Except.noConfusion h
      · rename_i body hlook
        split at h
        · exact Except.noConfusion h
        · rename_i body2 hret
          split at h
          · rename_i out2 ev2 hrec
            injection h with h
            obtain ⟨h1, _⟩ := (Prod.mk.injEq _ _ _ _).mp h
            subst h1
            obtain ⟨args, hat, hbody2⟩ := retargetCall_ok wdc instr0.call input.nextId body body2 hret
            have IHframe := injectLoop_frame wdc rest _ _ _ hrec
            intro f instr hmem
            rcases List.mem_cons.mp hmem with hmem | hmem
            · obtain ⟨hfeq, hieq⟩ := Prod.mk.injEq _ _ _ _ |>.mp hmem
              rw [hfeq, hieq]
              refine ⟨body, args, input.nextId, hlook, hat, Nat.le_refl _, ?_, ?_⟩
              · refine IHframe.2.2.2.2.1 _ ?_
                exact List.mem_append_right _ (List.mem_singleton.mpr rfl)
              · have hout := injectLoop_untouched wdc rest _ _ _ func hrec hfunc_not
                refine hout.trans ?_
                rw [← hbody2]
                exact lookupFunc_updateFunc_self input.funcs func body2 body hlook
            · have hne : f ≠ func := by
                intro he
                exact hfunc_not (he ▸ List.mem_map.mpr ⟨(f, instr), hmem, rfl⟩)
              obtain ⟨b, a2, nid, hb, ha2, hnid, himp, hbout⟩ := ih _ _ _ hek2 hrec f instr hmem
              refine ⟨b, a2, nid, ?_, ha2, ?_, himp, hbout⟩
              · have := lookupFunc_updateFunc_other input.funcs func f body2 hne
                exact this.symm.trans hb
              · exact Nat.le_trans (Nat.le_succ _) hnid
          · exact Except.noConfusion h

theorem injectLoop_clears_calls (wdc : Nat) (entries : List (Nat × DescribeInstruction))
    (input out : Context) (ev : List Event)
    (hkeys : (input.funcs.map Prod.fst).Nodup)
    (hek : (entries.map Prod.fst).Nodup)
    (hfresh : wdc < input.nextId)
    (hpre : ∀ p ∈ input.funcs, callIdsE wdc p.2 = [] ∨
      ∃ instr, (p.1, instr) ∈ entries ∧ callIdsE wdc p.2 = [instr.call])
    (h : injectLoop wdc entries input = .ok (out, ev)) :
    ∀ p ∈ out.funcs, callIdsE wdc p.2 = [] := by
  induction entries generalizing input out ev with
  | nil =>
    simp only [injectLoop] at h
    injection h with h
    obtain ⟨h1, _⟩ := (Prod.mk.injEq _ _ _ _).mp h
    subst h1
    intro p hp
    rcases hpre p hp with hnil | ⟨instr, hmem, _⟩
    · exact hnil
    · exact absurd hmem (List.not_mem_nil _)
  | cons e rest ih =>
    obtain ⟨func, instr0⟩ := e
    have hek2 : (rest.map Prod.fst).Nodup := by
      rw [List.map_cons] at hek
      exact (List.nodup_cons.mp hek).2
    have hfunc_not : func ∉ rest.map Prod.fst := by
      rw [List.map_cons] at hek
      exact (List.nodup_cons.mp hek).1
    cases hdesc : instr0.descriptor with
    | closure clos =>
      simp only [injectLoop, hdesc] at h
      split at h
      · exact Except.noConfusion h
      · rename_i body hlook
        split at h
        · exact Except.noConfusion h
        · rename_i body2 hret
          split at h
          · rename_i out2 ev2 hrec
            injection h with h
            obtain ⟨h1, _⟩ := (Prod.mk.injEq _ _ _ _).mp h
            subst h1
            obtain ⟨args, hat, hbody2⟩ := retargetCall_ok wdc instr0.call input.nextId body body2 hret
            refine ih _ _ _ ?_ hek2 ?_ ?_ hrec
            · show ((updateFunc input.funcs func body2).map Prod.fst).Nodup
              rw [updateFunc_map_fst]
              exact hkeys
            · show wdc < input.nextId + 1
              exact Nat.lt_succ_of_lt hfresh
            · show ∀ p ∈ updateFunc input.funcs func body2, callIdsE wdc p.2 = [] ∨
                ∃ instr, (p.1, instr) ∈ rest ∧ callIdsE wdc p.2 = [instr.call]
              intro p hp
              obtain ⟨q, hq, hqe⟩ := List.mem_map.mp hp
              by_cases hqf : q.1 = func
              · rw [if_pos hqf] at hqe
                subst hqe
                left
                show callIdsE wdc body2 = []
                have hmemq : (q.1, q.2) ∈ input.funcs := by
                  rw [Prod.mk.eta]
                  exact hq
                have hl := lookupFunc_of_mem_nodup input.funcs hkeys q.1 q.2 hmemq
                rw [hqf, hlook] at hl
                have hq2 : q.2 = body := (Option.some.inj hl).symm
                have hne : input.nextId ≠ wdc := by omega
                rw [hbody2, callIdsE_replace wdc instr0.call input.nextId hne body]
                rcases hpre q hq with hnil | ⟨instr, hmem, hone⟩
                · rw [hq2] at hnil
                  rw [hnil]
                  rfl
                · rcases List.mem_cons.mp hmem with hmem | hmem
                  · have hieq : instr = instr0 := ((Prod.mk.injEq _ _ _ _).mp hmem).2
                    rw [hieq, hq2] at hone
                    rw [hone]
                    simp
                  · exfalso
                    refine hfunc_not ?_
                    rw [← hqf]
                    exact List.mem_map.mpr ⟨(q.1, instr), hmem, rfl⟩
              · rw [if_neg hqf] at hqe
                subst hqe
                rcases hpre q hq with hnil | ⟨instr, hmem, hone⟩
                · exact Or.inl hnil
                · rcases List.mem_cons.mp hmem with hmem | hmem
                  · exact absurd ((Prod.mk.injEq _ _ _ _).mp hmem).1 hqf
                  · exact Or.inr ⟨instr, hmem, hone⟩
          · exact Except.noConfusion h

/-- C8: for every scanner hit, splicing retargets exactly the recorded call
expression — the body found for the hit function holds a call to the
describe-closure placeholder at the recorded identifier, the updated body is
that body with only the callee of that expression replaced by a freshly added
identifier (the node keeps its identifier and its operand identifiers,
and every other shallow node content is untouched) — and the identifiers of
the local functions of the module are unchanged by the splicing pass. -/
theorem C8_retarget_frame (info : ClosureDescriptors) (input out : Context)
    (ev : List Event) (wdc : Nat)
    (hkeys : (input.funcs.map Prod.fst).Nodup)
    (hek : (info.func_to_descriptor.map Prod.fst).Nodup)
    (hdc : input.describeClosure = some wdc)
    (h : info.inject_imports input = .ok (out, ev)) :
    out.funcs.map Prod.fst = input.funcs.map Prod.fst ∧
    (∀ f instr, (f, instr) ∈ info.func_to_descriptor →
      ∃ body args newId,
        lookupFunc f input.funcs = some body ∧
        exprAtE instr.call body = some (.call instr.call wdc args) ∧
        input.nextId ≤ newId ∧
        ("__wbindgen_placeholder__", "__wbindgen_closure_wrapper" ++ toString f, newId) ∈
          out.newImports ∧
        lookupFunc f out.funcs = some (replaceCalleeE instr.call newId body) ∧
        (exprAtE instr.call (replaceCalleeE instr.call newId body)).map Expr.head =
          some (ExprHead.callH instr.call newId args.idsOf) ∧
        (∀ eid, eid ≠ instr.call →
          (exprAtE eid (replaceCalleeE instr.call newId body)).map Expr.head =
            (exprAtE eid body).map Expr.head)) := by
  simp only [ClosureDescriptors.inject_imports, hdc] at h
  refine ⟨(injectLoop_frame wdc _ _ _ _ h).1, ?_⟩
  intro f instr hmem
  obtain ⟨body, args, newId, hb, hat, hnid, himp, hbout⟩ :=
    injectLoop_hits wdc _ _ _ _ hek h f instr hmem
  refine ⟨body, args, newId, hb, hat, hnid, himp, hbout, ?_, ?_⟩
  · rw [exprAtE_replace_target instr.call newId body wdc args hat]
    simp [Expr.head, replaceCalleeL_idsOf]
  · intro eid he
    exact exprAtE_replace_head instr.call newId eid he body

/-- Witness for C8 at the concrete one-hit module after table deletion. -/
theorem C8_witness : ctxAfter₀.funcs.map Prod.fst = ctxd₀.funcs.map Prod.fst :=
  (C8_retarget_frame info₀ ctxd₀ ctxAfter₀
    [Event.addExport 0, Event.addImport 0, Event.retarget 0 2] 5
    (by decide) (by decide) rfl (by rfl)).1

/-- C1 (amended): during a run of `rewrite` on a module with at least one
scanner hit, every function-table slot in the `TableSlotRemovalSet` is cleared
before any splicing mutation; table-slot clearing is the first mutation of the
pass, splicing comes after. -/
theorem C1_clearing_precedes_splicing (input out : Context) (ev : List Event)
    (h : rewrite input = .ok (out, ev)) : clearingBeforeSplicing ev := by
  unfold rewrite at h
  split at h
  · exact Except.noConfusion h
  · rename_i info hnew
    split at h
    · injection h with h
      obtain ⟨_, h2⟩ := (Prod.mk.injEq _ _ _ _).mp h
      rw [← h2]
      intro i j a b ha _ _ _
      exact absurd ha (by simp)
    · split at h
      · exact Except.noConfusion h
      · rename_i input1 ev1 hdel
        split at h
        · rename_i input2 ev2 hinj
          injection h with h
          obtain ⟨_, h2⟩ := (Prod.mk.injEq _ _ _ _).mp h
          rw [← h2]
          have hclear := (delete_entries_frame info input input1 ev1 hdel).2.2.2.2.2
          have hsplice : ∀ x ∈ ev2, x.isSplice = true := by
            unfold ClosureDescriptors.inject_imports at hinj
            split at hinj
            · injection hinj with hinj
              rw [← ((Prod.mk.injEq _ _ _ _).mp hinj).2]
              intro x hx
              exact absurd hx (List.not_mem_nil x)
            · rename_i wdc hdc
              exact (injectLoop_frame wdc _ _ _ _ hinj).2.2.2.2.2
          intro i j a b ha hb hac hbs
          by_cases hi : i < ev1.length
          · by_cases hj : j < ev1.length
            · exfalso
              rw [List.getElem?_append_left hj] at hb
              have hbc := hclear b (List.getElem?_mem hb)
              cases b <;> simp [Event.isClear, Event.isSplice] at hbc hbs
            · omega
          · exfalso
            rw [List.getElem?_append_right (Nat.le_of_not_lt hi)] at ha
            have has := hsplice a (List.getElem?_mem ha)
            cases a <;> simp [Event.isClear, Event.isSplice] at has hac
        · exact Except.noConfusion h

/-- Counterexample for C1 as stated: on the concrete one-hit module the trace
clears table slot 3 first (index 0) and splices afterwards (indices 1-3), so
a splicing mutation does not complete before the slot is cleared. -/
theorem C1_counterexample :
    rewrite ctx₀ = .ok (ctxAfter₀, trace₀) ∧ ¬ splicingBeforeClearing trace₀ := by
  constructor
  · rfl
  · intro horder
    have := horder 1 0 (Event.addExport 0) (Event.clearSlot 3) rfl rfl rfl rfl
    omega

/-- Witness for the amended C1 on the concrete one-hit module. -/
theorem C1_witness : clearingBeforeSplicing trace₀ :=
  C1_clearing_precedes_splicing ctx₀ ctxAfter₀ trace₀ (by rfl)

/-- C4: on a well-formed module (unique function identifiers, the placeholder
identifier below the fresh-identifier bound, interpreter recording at
least one slot per hit), a successful `rewrite` leaves a module in which the
scanner finds zero describe-closure call sites, and running `rewrite` again
succeeds and leaves the module unchanged with an empty mutation trace. -/
theorem C4_rewrite_idempotent (input out : Context) (ev : List Event)
    (hkeys : (input.funcs.map Prod.fst).Nodup)
    (hfresh : ∀ wdc, input.describeClosure = some wdc → wdc < input.nextId)
    (hinterp : InterpAddsSlots input)
    (h : rewrite input = .ok (out, ev)) :
    scanFindsNoHits out ∧ rewrite out = .ok (out, []) := by
  unfold rewrite at h
  split at h
  · exact Except.noConfusion h
  · rename_i info hnew
    split at h
    · rename_i hlen
      injection h with h
      obtain ⟨h1, _⟩ := (Prod.mk.injEq _ _ _ _).mp h
      rw [← h1]
      have hnil : info.element_removal_list = [] := List.length_eq_zero.mp hlen
      have hscan : scanFindsNoHits input := by
        intro wdc hdc p hp
        have hnew2 : newLoop wdc input.interp input.funcs ⟨[], []⟩ = .ok info := by
          simpa [ClosureDescriptors.new, hdc] using hnew
        have hret := newLoop_removal_nil wdc input.interp input.funcs ⟨[], []⟩ info
          hinterp hnew2 hnil
        rcases newLoop_chars wdc input.interp input.funcs ⟨[], []⟩ info hnew2 p hp with
          hok | ⟨instr, hmem, _⟩
        · exact hok
        · rw [← hret] at hmem
          exact absurd hmem (List.not_mem_nil _)
      refine ⟨hscan, ?_⟩
      simp [rewrite, hnew, hlen]
    · rename_i hlen
      split at h
      · exact Except.noConfusion h
      · rename_i input1 ev1 hdel
        split at h
        · rename_i input2 ev2 hinj
          injection h with h
          obtain ⟨h1, _⟩ := (Prod.mk.injEq _ _ _ _).mp h
          rw [← h1]
          cases hdc : input.describeClosure with
          | none =>
            exfalso
            have hinfo : info = ⟨[], []⟩ := by
              simp only [ClosureDescriptors.new, hdc] at hnew
              exact (Except.ok.inj hnew).symm
            rw [hinfo] at hlen
            simp at hlen
          | some wdc =>
            have hnew2 : newLoop wdc input.interp input.funcs ⟨[], []⟩ = .ok info := by
              simpa [ClosureDescriptors.new, hdc] using hnew
            obtain ⟨hfuncs1, hdc1, hint1, hnid1, _, _⟩ :=
              delete_entries_frame info input input1 ev1 hdel
            have hdc1b : input1.describeClosure = some wdc := by rw [hdc1, hdc]
            simp only [ClosureDescriptors.inject_imports, hdc1b] at hinj
            obtain ⟨s, hs, hsub⟩ := newLoop_keys wdc input.interp input.funcs ⟨[], []⟩ info hnew2
            have hek : (info.func_to_descriptor.map Prod.fst).Nodup := by
              rw [hs]
              simpa using List.Nodup.sublist hsub hkeys
            have hkeys1 : (input1.funcs.map Prod.fst).Nodup := by
              rw [hfuncs1]
              exact hkeys
            have hfresh1 : wdc < input1.nextId := by
              rw [hnid1]
              exact hfresh wdc hdc
            have hpre : ∀ p ∈ input1.funcs, callIdsE wdc p.2 = [] ∨
                ∃ instr, (p.1, instr) ∈ info.func_to_descriptor ∧
                  callIdsE wdc p.2 = [instr.call] := by
              rw [hfuncs1]
              intro p hp
              rcases newLoop_chars wdc input.interp input.funcs ⟨[], []⟩ info hnew2 p hp with
                hok | ⟨instr, hmem, hsome⟩
              · exact Or.inl ((findDescribeClosure_eq_ok_none wdc p.2).mp hok)
              · refine Or.inr ⟨instr, hmem, ?_⟩
                rw [findDescribeClosure_spec] at hsome
                exact (recordAll_none_eq_ok_some _ _).mp hsome
            have hzero := injectLoop_clears_calls wdc info.func_to_descriptor input1
              input2 ev2 hkeys1 hek hfresh1 hpre hinj
            have hfr := injectLoop_frame wdc info.func_to_descriptor input1 input2 ev2 hinj
            have hdc2 : input2.describeClosure = some wdc := by rw [hfr.2.1, hdc1b]
            have hnohits : ∀ p ∈ input2.funcs, findDescribeClosure wdc p.2 = .ok none :=
              fun p hp => (findDescribeClosure_eq_ok_none wdc p.2).mpr (hzero p hp)
            constructor
            · intro wdc2 hwdc2 p hp
              rw [hdc2] at hwdc2
              have hw : wdc2 = wdc := Option.some.inj hwdc2.symm
              rw [hw]
              exact hnohits p hp
            · simp [rewrite, ClosureDescriptors.new, hdc2,
                newLoop_no_hits wdc input2.interp input2.funcs ⟨[], []⟩ hnohits]
        · exact Except.noConfusion h

/-- Witness for C4 at the concrete one-hit module. -/
theorem C4_witness : scanFindsNoHits ctxAfter₀ ∧ rewrite ctxAfter₀ = .ok (ctxAfter₀, []) :=
  C4_rewrite_idempotent ctx₀ ctxAfter₀ trace₀
    (by decide)
    (by
      intro wdc h
      simp only [ctx₀] at h ⊢
      injection h with h
      omega)
    (by
      intro f r hr
      unfold ctx₀ interp₀ at hr
      simp only at hr
      by_cases hf : f = 0
      · rw [if_pos hf] at hr
        injection hr with hr
        rw [← hr]
        simp
      · rw [if_neg hf] at hr
        exact absurd hr (by simp))
    (by rfl)

end WasmBindgen
